import Mathlib

/-!
Verification of the WorkFlow-Agent-Engine graph execution core.

The development shallow-embeds the two traversal disciplines of the
repository:

* Discipline A — `workflow_engine.py` (`Node`, `Edge`, `Workflow`):
  breadth-first frontier traversal with a visited set.
* Discipline B — `app/engine.py` with `app/models.py` (`Engine`, `State`,
  `Node`, `Edge`): single-successor traversal with a fixed step ceiling.

Python dictionaries are modelled as association lists over `String` keys
(`PyDict`), with `dlookup` (membership / `[]`), `dinsert` (item
assignment: overwrite in place or append) and `dupdate` (`dict.update`).
Functions that may raise are modelled in `Except String`.
-/

/-- Association-list model of a Python `dict` with string keys. -/
abbrev PyDict (α : Type) : Type := List (String × α)

/-- `d[k]` / `k in d`: first binding of `k` in the association list. -/
def dlookup {α : Type} : PyDict α → String → Option α
  | [], _ => none
  | (k, v) :: rest, key => if k = key then some v else dlookup rest key

/-- `d[k] = v`: overwrite the binding of `k` in place, or append it. -/
def dinsert {α : Type} : PyDict α → String → α → PyDict α
  | [], key, v => [(key, v)]
  | (k, w) :: rest, key, v =>
    if k = key then (key, v) :: rest else (k, w) :: dinsert rest key v

/-- `d.update(u)`: key-wise overwrite of `d` by the bindings of `u`. -/
def dupdate {α : Type} (d u : PyDict α) : PyDict α :=
  u.foldl (fun acc kv => dinsert acc kv.1 kv.2) d

theorem dlookup_dinsert_self {α : Type} (d : PyDict α) (k : String) (v : α) :
    dlookup (dinsert d k v) k = some v := by
  induction d with
  | nil => simp [dinsert, dlookup]
  | cons hd tl ih =>
    obtain ⟨k', v'⟩ := hd
    by_cases h : k' = k
    · simp [dinsert, dlookup, h]
    · simp [dinsert, dlookup, h, ih]

theorem dlookup_dinsert_ne {α : Type} (d : PyDict α) (k k' : String) (v : α)
    (h : k ≠ k') : dlookup (dinsert d k v) k' = dlookup d k' := by
  induction d with
  | nil => simp [dinsert, dlookup, h]
  | cons hd tl ih =>
    obtain ⟨k0, v0⟩ := hd
    by_cases h0 : k0 = k
    · subst h0
      simp [dinsert, dlookup, h]
    · simp only [dinsert, if_neg h0]
      by_cases h1 : k0 = k'
      · simp [dlookup, h1]
      · simp [dlookup, h1, ih]

/-! ## Discipline A: data model (`workflow_engine.py`) -/

/-- `WorkflowStatus` of `workflow_engine.py`. -/
inductive WStatus : Type
  | created
  | running
  | completed
  | failed
deriving DecidableEq

/-- `Node` of `workflow_engine.py`: id, bound operation, display name.
The operation takes the state dict and returns the updated state dict;
a raised exception is modelled as `Except.error` carrying `str(e)`.
The mutable per-node `status`/`error` diagnostics are not modelled
(no claim reads them); run outcomes are tracked in the history. -/
structure NodeA (V : Type) : Type where
  node_id : String
  function : PyDict V → Except String (PyDict V)
  name : String

/-- `Edge` of `workflow_engine.py`: the optional condition is a predicate
over state that may itself raise. -/
structure EdgeA (V : Type) : Type where
  from_node : String
  to_node : String
  condition : Option (PyDict V → Except String Bool)

/-- `Edge.should_traverse`: `True` when no condition is attached,
otherwise the condition's result.  A raised exception propagates —
there is no handler in this method. -/
def EdgeA.should_traverse {V : Type} (e : EdgeA V) (state : PyDict V) :
    Except String Bool :=
  match e.condition with
  | none => .ok true
  | some c => c state

/-- One entry of `Workflow.execution_history`
(`{node_id, node_name, status, error?}`; the timestamp is not modelled). -/
structure HistEntry : Type where
  node_id : String
  node_name : String
  status : String
  error : Option String
deriving DecidableEq

/-- `Workflow` of `workflow_engine.py` (timestamps not modelled). -/
structure WorkflowA (V : Type) : Type where
  nodes : PyDict (NodeA V)
  edges : List (EdgeA V)
  state : PyDict V
  status : WStatus
  start_node : Option String
  end_nodes : List String
  execution_history : List HistEntry

/-- `Workflow.add_node`: unconditional item assignment into the node dict —
an existing node with the same id is silently replaced. -/
def WorkflowA.add_node {V : Type} (w : WorkflowA V) (n : NodeA V) :
    WorkflowA V :=
  { w with nodes := dinsert w.nodes n.node_id n }

/-- `Workflow.add_edge`: raises `ValueError` when either endpoint is not a
known node id, and only then appends the edge.  The pair returns the
exception outcome together with the post-call workflow (the `raise`
happens before any mutation, so on error the workflow is unchanged). -/
def WorkflowA.add_edge {V : Type} (w : WorkflowA V) (e : EdgeA V) :
    Except String Unit × WorkflowA V :=
  if (dlookup w.nodes e.from_node).isNone then
    (.error ("Source node " ++ e.from_node ++ " not found"), w)
  else if (dlookup w.nodes e.to_node).isNone then
    (.error ("Target node " ++ e.to_node ++ " not found"), w)
  else
    (.ok (), { w with edges := w.edges ++ [e] })

/-- `Workflow.set_entry_point`: raises when the id is unknown. -/
def WorkflowA.set_entry_point {V : Type} (w : WorkflowA V) (node_id : String) :
    Except String Unit × WorkflowA V :=
  if (dlookup w.nodes node_id).isNone then
    (.error ("Node " ++ node_id ++ " not found"), w)
  else
    (.ok (), { w with start_node := some node_id })

/-- `Workflow.add_end_node`: raises when the id is unknown; appends the id
to `end_nodes` only when it is not already present. -/
def WorkflowA.add_end_node {V : Type} (w : WorkflowA V) (node_id : String) :
    Except String Unit × WorkflowA V :=
  if (dlookup w.nodes node_id).isNone then
    (.error ("Node " ++ node_id ++ " not found"), w)
  else
    (.ok (),
     { w with end_nodes :=
         if node_id ∈ w.end_nodes then w.end_nodes
         else w.end_nodes ++ [node_id] })

/-- `True` exactly when the call raised (`Except.error`). -/
def raisedUnit {V : Type} (p : Except String Unit × WorkflowA V) : Bool :=
  match p.1 with
  | .error _ => true
  | .ok _ => false

/-! ## Claims about graph configuration (C4, C9, C10) -/

/-- C4: for every workflow and every edge whose `from_node` or `to_node`
is not a key of the node dict, `add_edge` raises and leaves the workflow
(in particular its edge list) exactly as it was: the invalid edge is
never appended. -/
theorem claim_C4 {V : Type} (w : WorkflowA V) (e : EdgeA V)
    (h : dlookup w.nodes e.from_node = none ∨ dlookup w.nodes e.to_node = none) :
    raisedUnit (w.add_edge e) = true ∧ (w.add_edge e).2 = w ∧
    (w.add_edge e).2.edges = w.edges := by
  rcases h with h | h
  · simp [WorkflowA.add_edge, raisedUnit, h]
  · by_cases h0 : (dlookup w.nodes e.from_node).isNone
    · simp [WorkflowA.add_edge, raisedUnit, h0]
    · simp [WorkflowA.add_edge, raisedUnit, h0, h]

/-- Concrete instance of `claim_C4`: an edge into an unknown node. -/
theorem claim_C4_witness :
    raisedUnit ((⟨[], [], [], .created, none, [], []⟩ : WorkflowA Nat).add_edge
      ⟨"a", "b", none⟩) = true ∧
    ((⟨[], [], [], .created, none, [], []⟩ : WorkflowA Nat).add_edge
      ⟨"a", "b", none⟩).2 = ⟨[], [], [], .created, none, [], []⟩ ∧
    ((⟨[], [], [], .created, none, [], []⟩ : WorkflowA Nat).add_edge
      ⟨"a", "b", none⟩).2.edges = [] :=
  claim_C4 ⟨[], [], [], .created, none, [], []⟩ ⟨"a", "b", none⟩ (Or.inl rfl)

/-- C9: `add_end_node` raises on an unknown node id and leaves the
workflow unchanged; for a known id it is idempotent — the second call is
a no-op on the terminal list, and when the id occurred at most once
before the first call it occurs exactly once after it. -/
theorem claim_C9 {V : Type} (w : WorkflowA V) (node_id : String) :
    (dlookup w.nodes node_id = none →
      raisedUnit (w.add_end_node node_id) = true ∧
      (w.add_end_node node_id).2 = w) ∧
    (∀ nd, dlookup w.nodes node_id = some nd →
      ((w.add_end_node node_id).2.add_end_node node_id).2.end_nodes =
        (w.add_end_node node_id).2.end_nodes ∧
      (w.end_nodes.count node_id ≤ 1 →
        (w.add_end_node node_id).2.end_nodes.count node_id = 1)) := by
  constructor
  · intro h
    simp [WorkflowA.add_end_node, raisedUnit, h]
  · intro nd h
    have hsome : (dlookup w.nodes node_id).isNone = false := by
      simp [h]
    by_cases hmem : node_id ∈ w.end_nodes
    · constructor
      · simp [WorkflowA.add_end_node, hsome, hmem]
      · intro hcount
        have h1 : 1 ≤ w.end_nodes.count node_id := List.one_le_count_iff.mpr hmem
        simp [WorkflowA.add_end_node, hsome, hmem]
        omega
    · constructor
      · simp [WorkflowA.add_end_node, hsome, hmem]
      · intro _
        have h0 : w.end_nodes.count node_id = 0 :=
          List.count_eq_zero.mpr hmem
        simp [WorkflowA.add_end_node, hsome, hmem, List.count_append, h0]

/-- Concrete instance of `claim_C9`: both the unknown-id behaviour and
idempotence on a one-node workflow. -/
theorem claim_C9_witness :
    (((⟨[("a", ⟨"a", Except.ok, "a"⟩)], [], [], .created, none, [],
        []⟩ : WorkflowA Nat).add_end_node "a").2.add_end_node
        "a").2.end_nodes =
      ((⟨[("a", ⟨"a", Except.ok, "a"⟩)], [], [], .created, none, [],
        []⟩ : WorkflowA Nat).add_end_node "a").2.end_nodes ∧
    ((⟨[("a", ⟨"a", Except.ok, "a"⟩)], [], [], .created, none, [],
        []⟩ : WorkflowA Nat).add_end_node
        "a").2.end_nodes.count "a" = 1 := by
  have h := (claim_C9 (V := Nat)
    ⟨[("a", ⟨"a", Except.ok, "a"⟩)], [], [], .created, none, [], []⟩
    "a").2 ⟨"a", Except.ok, "a"⟩ rfl
  exact ⟨h.1, h.2 (by decide)⟩

/-- C10: adding two nodes with the same id raises no error (`add_node` is
total) and the second silently replaces the first: the node dict maps
the shared id to the second node, while the edge list and the start node
are untouched. -/
theorem claim_C10 {V : Type} (w : WorkflowA V) (n1 n2 : NodeA V)
    (h : n1.node_id = n2.node_id) :
    dlookup ((w.add_node n1).add_node n2).nodes n1.node_id = some n2 ∧
    ((w.add_node n1).add_node n2).edges = w.edges ∧
    ((w.add_node n1).add_node n2).start_node = w.start_node := by
  refine ⟨?_, rfl, rfl⟩
  rw [h]
  simp [WorkflowA.add_node, dlookup_dinsert_self]

/-- Concrete instance of `claim_C10`: re-adding id `"a"` replaces the
node and keeps edges and entry point. -/
theorem claim_C10_witness :
    dlookup (((⟨[], [], [], .created, none, [], []⟩ : WorkflowA Nat).add_node
        ⟨"a", Except.ok, "first"⟩).add_node
        ⟨"a", Except.ok, "second"⟩).nodes "a" =
      some ⟨"a", Except.ok, "second"⟩ ∧
    (((⟨[], [], [], .created, none, [], []⟩ : WorkflowA Nat).add_node
        ⟨"a", Except.ok, "first"⟩).add_node
        ⟨"a", Except.ok, "second"⟩).edges = [] ∧
    (((⟨[], [], [], .created, none, [], []⟩ : WorkflowA Nat).add_node
        ⟨"a", Except.ok, "first"⟩).add_node
        ⟨"a", Except.ok, "second"⟩).start_node = none :=
  claim_C10 ⟨[], [], [], .created, none, [], []⟩
    ⟨"a", Except.ok, "first"⟩ ⟨"a", Except.ok, "second"⟩ rfl

/-! ## Discipline A: execution (`Workflow.execute`) -/

/-- `Workflow.get_next_nodes`: destinations of the edges leaving
`current`, in declaration order, keeping those whose condition is
satisfied.  A condition that raises propagates (no handler on this
path), discarding the partial list. -/
def getNextNodesA {V : Type} (edges : List (EdgeA V)) (current : String)
    (state : PyDict V) : Except String (List String) :=
  match edges with
  | [] => .ok []
  | e :: rest =>
    if e.from_node = current then
      match e.should_traverse state with
      | .error msg => .error msg
      | .ok true =>
        match getNextNodesA rest current state with
        | .error msg => .error msg
        | .ok l => .ok (e.to_node :: l)
      | .ok false => getNextNodesA rest current state
    else getNextNodesA rest current state

/-- Outcome of one `Workflow.execute` call: the final workflow status and
history, the state the workflow object holds afterwards, and the value
returned to the caller (or the propagated exception). -/
structure RunResultA (V : Type) : Type where
  status : WStatus
  execution_history : List HistEntry
  state : PyDict V
  ret : Except String (PyDict V)

/-- The inner `for node_id in current_nodes` loop of `Workflow.execute`:
walks the frontier, skipping visited ids, executing each new node and
collecting its satisfied successors into the next frontier (`acc`).
`Sum.inl` aborts the whole run (an exception reached the outer handler:
status `failed`, exception re-raised); `Sum.inr` hands the next
frontier, visited set, state and history back to the `while` loop. -/
def execRound {V : Type} (w : WorkflowA V) :
    List String → List String → List String → PyDict V → List HistEntry →
    RunResultA V ⊕ (List String × List String × PyDict V × List HistEntry)
  | [], acc, visited, st, hist => .inr (acc, visited, st, hist)
  | node_id :: rest, acc, visited, st, hist =>
    if node_id ∈ visited then execRound w rest acc visited st hist
    else
      match dlookup w.nodes node_id with
      | none =>
        -- `self.nodes[node_id]` raises `KeyError`; no history entry is
        -- appended for this id.
        .inl ⟨.failed, hist, st, .error ("KeyError: " ++ node_id)⟩
      | some node =>
        match node.function st with
        | .error e =>
          .inl ⟨.failed, hist ++ [⟨node_id, node.name, "failed", some e⟩],
                st, .error e⟩
        | .ok st1 =>
          if node_id ∈ w.end_nodes then
            execRound w rest acc (node_id :: visited) st1
              (hist ++ [⟨node_id, node.name, "completed", none⟩])
          else
            match getNextNodesA w.edges node_id st1 with
            | .error e =>
              .inl ⟨.failed,
                    hist ++ [⟨node_id, node.name, "completed", none⟩],
                    st1, .error e⟩
            | .ok nexts =>
              execRound w rest (acc ++ nexts) (node_id :: visited) st1
                (hist ++ [⟨node_id, node.name, "completed", none⟩])

/-- The `while current_nodes:` loop of `Workflow.execute`.  `fuel` is a
structural bound on the number of loop rounds; `execLoop_isSome` below
shows the bound used by `WorkflowA.execute` is never exhausted. -/
def execLoop {V : Type} (w : WorkflowA V) :
    Nat → List String → List String → PyDict V → List HistEntry →
    Option (RunResultA V)
  | 0, _, _, _, _ => none
  | fuel + 1, frontier, visited, st, hist =>
    if frontier.isEmpty then some ⟨.completed, hist, st, .ok st⟩
    else
      match execRound w frontier [] visited st hist with
      | .inl r => some r
      | .inr (next, visited1, st1, hist1) =>
        execLoop w fuel next visited1 st1 hist1

/-- The declared node ids of a workflow. -/
def nodeKeys {V : Type} (w : WorkflowA V) : List String :=
  w.nodes.map Prod.fst

/-- `Workflow.execute`: fails up front when no entry point is set
(leaving status, state and history untouched); otherwise resets state
and history and runs the frontier loop from `[start_node]`. -/
def WorkflowA.execute {V : Type} (w : WorkflowA V) (initial_state : PyDict V) :
    Option (RunResultA V) :=
  match w.start_node with
  | none =>
    some ⟨w.status, w.execution_history, w.state,
          .error "No entry point set for workflow"⟩
  | some s => execLoop w ((nodeKeys w).length + 2) [s] [] initial_state []

/-- Projection: final workflow status of a run. -/
def runStatus {V : Type} : Option (RunResultA V) → Option WStatus
  | some r => some r.status
  | none => none

/-- Projection: node ids of the history entries, in execution order. -/
def runHistIds {V : Type} : Option (RunResultA V) → List String
  | some r => r.execution_history.map HistEntry.node_id
  | none => []

/-- Projection: `true` when the run re-raised an exception to the caller. -/
def runRaised {V : Type} : Option (RunResultA V) → Bool
  | some r =>
    match r.ret with
    | .error _ => true
    | .ok _ => false
  | none => false

/-- Projection: the state the workflow holds after the run. -/
def runState {V : Type} : Option (RunResultA V) → Option (PyDict V)
  | some r => some r.state
  | none => none

/-! ## Concrete workflows for C7 and the C1/C2 counterexamples -/

/-- A node operation that returns the state unchanged. -/
def idOp : PyDict Nat → Except String (PyDict Nat) := Except.ok

/-- Linear chain A→B→C with unconditional edges, terminal `{C}`,
entry point A (the graph of C7). -/
def wLinear : WorkflowA Nat :=
  { nodes := [("A", ⟨"A", idOp, "A"⟩), ("B", ⟨"B", idOp, "B"⟩),
              ("C", ⟨"C", idOp, "C"⟩)],
    edges := [⟨"A", "B", none⟩, ⟨"B", "C", none⟩],
    state := [], status := .created, start_node := some "A",
    end_nodes := ["C"], execution_history := [] }

/-- C7: running the linear chain A→B→C from the empty state executes
A, then B, then C, each exactly once — the history is exactly the three
entries `A, B, C` in that order — and the run completes. -/
theorem claim_C7 :
    runHistIds (wLinear.execute []) = ["A", "B", "C"] ∧
    runStatus (wLinear.execute []) = some .completed ∧
    runRaised (wLinear.execute []) = false := by
  decide

/-- A node operation that returns the empty dict `{}`. -/
def emptyOp : PyDict Nat → Except String (PyDict Nat) := fun _ => .ok []

/-- Single-node workflow whose node operation returns `{}`
(the C1 counterexample graph for Discipline A). -/
def wEmptyReturn : WorkflowA Nat :=
  { nodes := [("X", ⟨"X", emptyOp, "X"⟩)],
    edges := [], state := [], status := .created, start_node := some "X",
    end_nodes := ["X"], execution_history := [] }

/-- C1 counterexample: in Discipline A, `Workflow.execute` assigns the
node's return value to the state wholesale (`self.state =
node.execute(self.state)`), so running `wEmptyReturn` from the state
`{"k": 7}` ends with the empty state — the pre-existing key `"k"` is
gone, refuting the claim for Discipline A. -/
theorem claim_C1_cex :
    runState (wEmptyReturn.execute [("k", 7)]) = some [] ∧
    runStatus (wEmptyReturn.execute [("k", 7)]) = some .completed ∧
    dlookup [("k", 7)] "k" = some 7 := by
  decide

/-- An edge condition that raises. -/
def raiseCond : PyDict Nat → Except String Bool := fun _ => .error "boom"

/-- Two-node workflow whose only edge has a raising condition
(the C2 counterexample graph for Discipline A). -/
def wRaisingEdge : WorkflowA Nat :=
  { nodes := [("X", ⟨"X", idOp, "X"⟩), ("Y", ⟨"Y", idOp, "Y"⟩)],
    edges := [⟨"X", "Y", some raiseCond⟩],
    state := [], status := .created, start_node := some "X",
    end_nodes := ["Y"], execution_history := [] }

/-- C2 counterexample: in Discipline A a raising edge condition is NOT
swallowed — `Edge.should_traverse` has no handler, the exception reaches
`Workflow.execute`'s outer handler, the run aborts with status `failed`,
re-raises to the caller, and the successor node Y never executes. -/
theorem claim_C2_cex :
    runStatus (wRaisingEdge.execute []) = some .failed ∧
    runHistIds (wRaisingEdge.execute []) = ["X"] ∧
    runRaised (wRaisingEdge.execute []) = true := by
  decide

/-! ## Unfolding lemmas for `execRound` -/

theorem execRound_skip {V : Type} {w : WorkflowA V} {node_id : String}
    {rest acc visited : List String} {st : PyDict V} {hist : List HistEntry}
    (hmem : node_id ∈ visited) :
    execRound w (node_id :: rest) acc visited st hist =
      execRound w rest acc visited st hist := by
  simp [execRound, hmem]

theorem execRound_keyerr {V : Type} {w : WorkflowA V} {node_id : String}
    {rest acc visited : List String} {st : PyDict V} {hist : List HistEntry}
    (hmem : node_id ∉ visited) (hlk : dlookup w.nodes node_id = none) :
    execRound w (node_id :: rest) acc visited st hist =
      .inl ⟨.failed, hist, st, .error ("KeyError: " ++ node_id)⟩ := by
  simp [execRound, hmem, hlk]

theorem execRound_fnerr {V : Type} {w : WorkflowA V} {node_id : String}
    {rest acc visited : List String} {st : PyDict V} {hist : List HistEntry}
    {node : NodeA V} {e : String}
    (hmem : node_id ∉ visited) (hlk : dlookup w.nodes node_id = some node)
    (hfn : node.function st = .error e) :
    execRound w (node_id :: rest) acc visited st hist =
      .inl ⟨.failed, hist ++ [⟨node_id, node.name, "failed", some e⟩],
            st, .error e⟩ := by
  simp [execRound, hmem, hlk, hfn]

theorem execRound_endnode {V : Type} {w : WorkflowA V} {node_id : String}
    {rest acc visited : List String} {st st1 : PyDict V}
    {hist : List HistEntry} {node : NodeA V}
    (hmem : node_id ∉ visited) (hlk : dlookup w.nodes node_id = some node)
    (hfn : node.function st = .ok st1) (hend : node_id ∈ w.end_nodes) :
    execRound w (node_id :: rest) acc visited st hist =
      execRound w rest acc (node_id :: visited) st1
        (hist ++ [⟨node_id, node.name, "completed", none⟩]) := by
  simp [execRound, hmem, hlk, hfn, hend]

theorem execRound_conderr {V : Type} {w : WorkflowA V} {node_id : String}
    {rest acc visited : List String} {st st1 : PyDict V}
    {hist : List HistEntry} {node : NodeA V} {e : String}
    (hmem : node_id ∉ visited) (hlk : dlookup w.nodes node_id = some node)
    (hfn : node.function st = .ok st1) (hend : node_id ∉ w.end_nodes)
    (hnx : getNextNodesA w.edges node_id st1 = .error e) :
    execRound w (node_id :: rest) acc visited st hist =
      .inl ⟨.failed, hist ++ [⟨node_id, node.name, "completed", none⟩],
            st1, .error e⟩ := by
  simp [execRound, hmem, hlk, hfn, hend, hnx]

theorem execRound_step {V : Type} {w : WorkflowA V} {node_id : String}
    {rest acc visited : List String} {st st1 : PyDict V}
    {hist : List HistEntry} {node : NodeA V} {nexts : List String}
    (hmem : node_id ∉ visited) (hlk : dlookup w.nodes node_id = some node)
    (hfn : node.function st = .ok st1) (hend : node_id ∉ w.end_nodes)
    (hnx : getNextNodesA w.edges node_id st1 = .ok nexts) :
    execRound w (node_id :: rest) acc visited st hist =
      execRound w rest (acc ++ nexts) (node_id :: visited) st1
        (hist ++ [⟨node_id, node.name, "completed", none⟩]) := by
  simp [execRound, hmem, hlk, hfn, hend, hnx]

theorem mem_map_fst_of_dlookup {α : Type} {d : PyDict α} {k : String}
    {v : α} (h : dlookup d k = some v) : k ∈ d.map Prod.fst := by
  induction d with
  | nil => simp [dlookup] at h
  | cons hd tl ih =>
    obtain ⟨k0, v0⟩ := hd
    by_cases h0 : k0 = k
    · simp [h0]
    · simp only [dlookup, if_neg h0] at h
      simp [ih h]

theorem mem_nodeKeys_of_dlookup {V : Type} {w : WorkflowA V} {k : String}
    {nd : NodeA V} (h : dlookup w.nodes k = some nd) : k ∈ nodeKeys w :=
  mem_map_fst_of_dlookup h

/-- Invariants of one frontier round that hands control back to the
`while` loop: the visited set only grows, stays duplicate-free, only
gains declared node ids, a round that visits nothing adds nothing to the
next frontier, history entries never turn `"failed"` on this path, and
history node ids stay duplicate-free and inside the visited set. -/
theorem execRound_inr_spec {V : Type} (w : WorkflowA V) :
    ∀ (frontier acc visited : List String) (st : PyDict V)
      (hist : List HistEntry) (next visited1 : List String)
      (st1 : PyDict V) (hist1 : List HistEntry),
      execRound w frontier acc visited st hist =
        Sum.inr (next, visited1, st1, hist1) →
      visited ⊆ visited1 ∧
      visited.length ≤ visited1.length ∧
      (visited.Nodup → visited1.Nodup) ∧
      (∀ x ∈ visited1, x ∈ visited ∨ x ∈ nodeKeys w) ∧
      (visited1.length = visited.length → next = acc) ∧
      ((∀ ent ∈ hist, ent.status ≠ "failed") →
        ∀ ent ∈ hist1, ent.status ≠ "failed") ∧
      ((hist.map HistEntry.node_id).Nodup →
        (∀ i ∈ hist.map HistEntry.node_id, i ∈ visited) →
        (hist1.map HistEntry.node_id).Nodup ∧
          ∀ i ∈ hist1.map HistEntry.node_id, i ∈ visited1) := by
  intro frontier
  induction frontier with
  | nil =>
    intro acc visited st hist next visited1 st1 hist1 h
    simp only [execRound, Sum.inr.injEq, Prod.mk.injEq] at h
    obtain ⟨h1, h2, h3, h4⟩ := h
    subst h1; subst h2; subst h3; subst h4
    refine ⟨List.Subset.refl _, le_refl _, fun hn => hn, ?_, ?_, ?_, ?_⟩
    · intro x hx; exact Or.inl hx
    · intro _; rfl
    · intro hc; exact hc
    · intro hn hm; exact ⟨hn, hm⟩
  | cons node_id rest ih =>
    intro acc visited st hist next visited1 st1 hist1 h
    by_cases hmem : node_id ∈ visited
    · rw [execRound_skip hmem] at h
      exact ih acc visited st hist next visited1 st1 hist1 h
    · cases hlk : dlookup w.nodes node_id with
      | none =>
        rw [execRound_keyerr hmem hlk] at h
        cases h
      | some node =>
        cases hfn : node.function st with
        | error e =>
          rw [execRound_fnerr hmem hlk hfn] at h
          cases h
        | ok stA =>
          have hkey : node_id ∈ nodeKeys w := mem_nodeKeys_of_dlookup hlk
          have main :
              execRound w rest acc (node_id :: visited) stA
                  (hist ++ [⟨node_id, node.name, "completed", none⟩]) =
                  Sum.inr (next, visited1, st1, hist1) ∨
                ∃ nexts,
                  getNextNodesA w.edges node_id stA = .ok nexts ∧
                  execRound w rest (acc ++ nexts) (node_id :: visited) stA
                    (hist ++ [⟨node_id, node.name, "completed", none⟩]) =
                    Sum.inr (next, visited1, st1, hist1) := by
            by_cases hend : node_id ∈ w.end_nodes
            · rw [execRound_endnode hmem hlk hfn hend] at h
              exact Or.inl h
            · cases hnx : getNextNodesA w.edges node_id stA with
              | error e =>
                rw [execRound_conderr hmem hlk hfn hend hnx] at h
                cases h
              | ok nexts =>
                rw [execRound_step hmem hlk hfn hend hnx] at h
                exact Or.inr ⟨nexts, rfl, h⟩
          have step :
              ∀ acc2, execRound w rest acc2 (node_id :: visited) stA
                  (hist ++ [⟨node_id, node.name, "completed", none⟩]) =
                  Sum.inr (next, visited1, st1, hist1) →
                visited ⊆ visited1 ∧
                visited.length ≤ visited1.length ∧
                (visited.Nodup → visited1.Nodup) ∧
                (∀ x ∈ visited1, x ∈ visited ∨ x ∈ nodeKeys w) ∧
                (visited1.length = visited.length → False) ∧
                ((∀ ent ∈ hist, ent.status ≠ "failed") →
                  ∀ ent ∈ hist1, ent.status ≠ "failed") ∧
                ((hist.map HistEntry.node_id).Nodup →
                  (∀ i ∈ hist.map HistEntry.node_id, i ∈ visited) →
                  (hist1.map HistEntry.node_id).Nodup ∧
                    ∀ i ∈ hist1.map HistEntry.node_id, i ∈ visited1) := by
            intro acc2 h2
            obtain ⟨s1, s2, s3, s4, _, s6, s7⟩ :=
              ih acc2 (node_id :: visited) stA
                (hist ++ [⟨node_id, node.name, "completed", none⟩])
                next visited1 st1 hist1 h2
            refine ⟨?_, ?_, ?_, ?_, ?_, ?_, ?_⟩
            · intro x hx; exact s1 (List.mem_cons_of_mem _ hx)
            · calc visited.length ≤ visited.length + 1 := Nat.le_succ _
                _ = (node_id :: visited).length := rfl
                _ ≤ visited1.length := s2
            · intro hnd
              exact s3 (List.nodup_cons.mpr ⟨hmem, hnd⟩)
            · intro x hx
              rcases s4 x hx with hin | hin
              · rcases List.mem_cons.mp hin with hx0 | hx0
                · subst hx0; exact Or.inr hkey
                · exact Or.inl hx0
              · exact Or.inr hin
            · intro hlen
              have : (node_id :: visited).length ≤ visited1.length := s2
              simp only [List.length_cons] at this
              omega
            · intro hclean
              refine s6 ?_
              intro ent hent
              rcases List.mem_append.mp hent with hent | hent
              · exact hclean ent hent
              · simp only [List.mem_singleton] at hent
                subst hent
                simp
            · intro hnd hsub
              have hnotin : node_id ∉ hist.map HistEntry.node_id := by
                intro hc
                exact hmem (hsub node_id hc)
              refine s7 ?_ ?_
              · rw [List.map_append]
                simp only [List.map_cons, List.map_nil]
                rw [List.nodup_append]
                refine ⟨hnd, List.nodup_singleton _, ?_⟩
                intro x hx1 hx2
                simp only [List.mem_singleton] at hx2
                subst hx2
                exact hnotin hx1
              · intro i hi
                rw [List.map_append] at hi
                rcases List.mem_append.mp hi with hi | hi
                · exact List.mem_cons_of_mem _ (hsub i hi)
                · simp only [List.map_cons, List.map_nil,
                    List.mem_singleton] at hi
                  subst hi
                  exact List.mem_cons_self _ _
          rcases main with hcase | ⟨nexts, _, hcase⟩
          · obtain ⟨t1, t2, t3, t4, t5, t6, t7⟩ := step acc hcase
            exact ⟨t1, t2, t3, t4, fun hlen => absurd hlen (fun hl => t5 hl),
                   t6, t7⟩
          · obtain ⟨t1, t2, t3, t4, t5, t6, t7⟩ := step (acc ++ nexts) hcase
            exact ⟨t1, t2, t3, t4, fun hlen => absurd hlen (fun hl => t5 hl),
                   t6, t7⟩

/-- Invariants of a frontier round that aborts the run: the status is
`failed`, history node ids stay duplicate-free, and — when no earlier
entry was a failure — every `"failed"` history entry carries the error
message that is re-raised to the caller. -/
theorem execRound_inl_spec {V : Type} (w : WorkflowA V) :
    ∀ (frontier acc visited : List String) (st : PyDict V)
      (hist : List HistEntry) (r : RunResultA V),
      execRound w frontier acc visited st hist = Sum.inl r →
      r.status = .failed ∧
      ((hist.map HistEntry.node_id).Nodup →
        (∀ i ∈ hist.map HistEntry.node_id, i ∈ visited) →
        (r.execution_history.map HistEntry.node_id).Nodup) ∧
      ((∀ ent ∈ hist, ent.status ≠ "failed") →
        ∀ ent ∈ r.execution_history, ent.status = "failed" →
          ∃ msg, ent.error = some msg ∧ r.ret = Except.error msg) := by
  intro frontier
  induction frontier with
  | nil =>
    intro acc visited st hist r h
    simp only [execRound] at h
    cases h
  | cons node_id rest ih =>
    intro acc visited st hist r h
    by_cases hmem : node_id ∈ visited
    · rw [execRound_skip hmem] at h
      exact ih acc visited st hist r h
    · cases hlk : dlookup w.nodes node_id with
      | none =>
        rw [execRound_keyerr hmem hlk] at h
        obtain ⟨rfl⟩ := Sum.inl.inj h
        refine ⟨rfl, fun hnd _ => hnd, ?_⟩
        intro hclean ent hent hfail
        exact absurd hfail (hclean ent hent)
      | some node =>
        cases hfn : node.function st with
        | error e =>
          rw [execRound_fnerr hmem hlk hfn] at h
          obtain ⟨rfl⟩ := Sum.inl.inj h
          refine ⟨rfl, ?_, ?_⟩
          · intro hnd hsub
            have hnotin : node_id ∉ hist.map HistEntry.node_id := by
              intro hc
              exact hmem (hsub node_id hc)
            simp only [List.map_append, List.map_cons, List.map_nil]
            rw [List.nodup_append]
            refine ⟨hnd, List.nodup_singleton _, ?_⟩
            intro x hx1 hx2
            simp only [List.mem_singleton] at hx2
            subst hx2
            exact hnotin hx1
          · intro hclean ent hent hfail
            rcases List.mem_append.mp hent with hent | hent
            · exact absurd hfail (hclean ent hent)
            · simp only [List.mem_singleton] at hent
              subst hent
              exact ⟨e, rfl, rfl⟩
        | ok stA =>
          have hstep :
              ∀ (acc2 : List String) (stB : PyDict V),
                execRound w rest acc2 (node_id :: visited) stA
                    (hist ++ [⟨node_id, node.name, "completed", none⟩]) =
                  Sum.inl r →
                r.status = .failed ∧
                ((hist.map HistEntry.node_id).Nodup →
                  (∀ i ∈ hist.map HistEntry.node_id, i ∈ visited) →
                  (r.execution_history.map HistEntry.node_id).Nodup) ∧
                ((∀ ent ∈ hist, ent.status ≠ "failed") →
                  ∀ ent ∈ r.execution_history, ent.status = "failed" →
                    ∃ msg, ent.error = some msg ∧
                      r.ret = Except.error msg) := by
            intro acc2 stB h2
            obtain ⟨s1, s2, s3⟩ :=
              ih acc2 (node_id :: visited) stA
                (hist ++ [⟨node_id, node.name, "completed", none⟩]) r h2
            refine ⟨s1, ?_, ?_⟩
            · intro hnd hsub
              have hnotin : node_id ∉ hist.map HistEntry.node_id := by
                intro hc
                exact hmem (hsub node_id hc)
              refine s2 ?_ ?_
              · simp only [List.map_append, List.map_cons, List.map_nil]
                rw [List.nodup_append]
                refine ⟨hnd, List.nodup_singleton _, ?_⟩
                intro x hx1 hx2
                simp only [List.mem_singleton] at hx2
                subst hx2
                exact hnotin hx1
              · intro i hi
                simp only [List.map_append, List.map_cons,
                  List.map_nil] at hi
                rcases List.mem_append.mp hi with hi | hi
                · exact List.mem_cons_of_mem _ (hsub i hi)
                · simp only [List.mem_singleton] at hi
                  subst hi
                  exact List.mem_cons_self _ _
            · intro hclean
              refine s3 ?_
              intro ent hent
              rcases List.mem_append.mp hent with hent | hent
              · exact hclean ent hent
              · simp only [List.mem_singleton] at hent
                subst hent
                simp
          by_cases hend : node_id ∈ w.end_nodes
          · rw [execRound_endnode hmem hlk hfn hend] at h
            exact hstep acc stA h
          · cases hnx : getNextNodesA w.edges node_id stA with
            | error e =>
              rw [execRound_conderr hmem hlk hfn hend hnx] at h
              obtain ⟨rfl⟩ := Sum.inl.inj h
              refine ⟨rfl, ?_, ?_⟩
              · intro hnd hsub
                have hnotin : node_id ∉ hist.map HistEntry.node_id := by
                  intro hc
                  exact hmem (hsub node_id hc)
                simp only [List.map_append, List.map_cons, List.map_nil]
                rw [List.nodup_append]
                refine ⟨hnd, List.nodup_singleton _, ?_⟩
                intro x hx1 hx2
                simp only [List.mem_singleton] at hx2
                subst hx2
                exact hnotin hx1
              · intro hclean ent hent hfail
                rcases List.mem_append.mp hent with hent | hent
                · exact absurd hfail (hclean ent hent)
                · simp only [List.mem_singleton] at hent
                  subst hent
                  simp at hfail
            | ok nexts =>
              rw [execRound_step hmem hlk hfn hend hnx] at h
              exact hstep (acc ++ nexts) stA h

/-- The `while` loop of `Workflow.execute` never exhausts the fuel bound
`|nodes| + 2`: every round either aborts, grows the visited set by at
least one declared node id, or empties the frontier.  Along the way the
history node ids stay duplicate-free and any `"failed"` entry comes with
status `failed` and the re-raised error. -/
theorem execLoop_spec {V : Type} (w : WorkflowA V) :
    ∀ (fuel : Nat) (frontier visited : List String) (st : PyDict V)
      (hist : List HistEntry),
      visited.Nodup →
      (∀ x ∈ visited, x ∈ nodeKeys w) →
      (nodeKeys w).length + 2 ≤ fuel + visited.length →
      (hist.map HistEntry.node_id).Nodup →
      (∀ i ∈ hist.map HistEntry.node_id, i ∈ visited) →
      (∀ ent ∈ hist, ent.status ≠ "failed") →
      ∃ r, execLoop w fuel frontier visited st hist = some r ∧
        (r.execution_history.map HistEntry.node_id).Nodup ∧
        (∀ ent ∈ r.execution_history, ent.status = "failed" →
          r.status = .failed ∧
          ∃ msg, ent.error = some msg ∧ r.ret = Except.error msg) := by
  intro fuel
  induction fuel with
  | zero =>
    intro frontier visited st hist hnd hvis hfuel _ _ _
    have hvlen : visited.length ≤ (nodeKeys w).length :=
      (hnd.subperm (fun x hx => hvis x hx)).length_le
    omega
  | succ fuel ih =>
    intro frontier visited st hist hnd hvis hfuel hhnd hhsub hclean
    by_cases hempty : frontier.isEmpty
    · refine ⟨⟨.completed, hist, st, .ok st⟩, ?_, hhnd, ?_⟩
      · simp [execLoop, hempty]
      · intro ent hent hfail
        exact absurd hfail (hclean ent hent)
    · cases hr : execRound w frontier [] visited st hist with
      | inl r =>
        obtain ⟨s1, s2, s3⟩ := execRound_inl_spec w frontier [] visited st
          hist r hr
        refine ⟨r, ?_, s2 hhnd hhsub, ?_⟩
        · simp [execLoop, hempty, hr]
        · intro ent hent hfail
          exact ⟨s1, s3 hclean ent hent hfail⟩
      | inr q =>
        obtain ⟨next, visited1, st1, hist1⟩ := q
        obtain ⟨s1, s2, s3, s4, s5, s6, s7⟩ := execRound_inr_spec w frontier
          [] visited st hist next visited1 st1 hist1 hr
        have hvis1 : ∀ x ∈ visited1, x ∈ nodeKeys w := by
          intro x hx
          rcases s4 x hx with hx0 | hx0
          · exact hvis x hx0
          · exact hx0
        obtain ⟨hist1nd, hist1sub⟩ := s7 hhnd hhsub
        have hclean1 : ∀ ent ∈ hist1, ent.status ≠ "failed" := s6 hclean
        by_cases hlen : visited1.length = visited.length
        · -- stalled round: nothing new was visited, so the next frontier
          -- is empty and the loop finishes on the next iteration.
          have hnext : next = [] := s5 hlen
          have hvlen : visited.length ≤ (nodeKeys w).length :=
            (hnd.subperm (fun x hx => hvis x hx)).length_le
          have hfuelpos : 1 ≤ fuel := by omega
          obtain ⟨fuel0, rfl⟩ : ∃ fuel0, fuel = fuel0 + 1 :=
            ⟨fuel - 1, by omega⟩
          refine ⟨⟨.completed, hist1, st1, .ok st1⟩, ?_, hist1nd, ?_⟩
          · simp [execLoop, hempty, hr, hnext]
          · intro ent hent hfail
            exact absurd hfail (hclean1 ent hent)
        · have hgrow : visited.length + 1 ≤ visited1.length := by omega
          obtain ⟨r, hrun, hrnd, hrfail⟩ :=
            ih next visited1 st1 hist1 (s3 hnd) hvis1 (by omega)
              hist1nd hist1sub hclean1
          refine ⟨r, ?_, hrnd, hrfail⟩
          simp [execLoop, hempty, hr, hrun]

/-- C5: for every workflow with an entry point set, Discipline A's
`Workflow.execute` terminates — the fuel bound `|nodes| + 2` on the
`while` loop is never exhausted, whatever cycles (including self-loops)
the edges form — and within a single run each node's operation is
invoked at most once: the history node ids are duplicate-free, and every
operation invocation appends exactly one history entry for its id. -/
theorem claim_C5 {V : Type} (w : WorkflowA V) (init : PyDict V) (s : String)
    (h : w.start_node = some s) :
    (w.execute init).isSome = true ∧ (runHistIds (w.execute init)).Nodup := by
  obtain ⟨r, hr, hnd, _⟩ :=
    execLoop_spec w ((nodeKeys w).length + 2) [s] [] init []
      List.nodup_nil (by simp) (by omega) (by simp) (by simp) (by simp)
  simp only [WorkflowA.execute, h, hr]
  exact ⟨rfl, by simpa [runHistIds] using hnd⟩

/-- Two-node workflow with cycles A→B, B→A and a self-loop B→B
(the C5 witness graph). -/
def wCycle : WorkflowA Nat :=
  { nodes := [("A", ⟨"A", idOp, "A"⟩), ("B", ⟨"B", idOp, "B"⟩)],
    edges := [⟨"A", "B", none⟩, ⟨"B", "A", none⟩, ⟨"B", "B", none⟩],
    state := [], status := .created, start_node := some "A",
    end_nodes := [], execution_history := [] }

/-- Concrete instance of `claim_C5`: the cyclic workflow terminates and
runs each node at most once. -/
theorem claim_C5_witness :
    (wCycle.execute []).isSome = true ∧
    (runHistIds (wCycle.execute [])).Nodup :=
  claim_C5 wCycle [] "A" rfl

/-- C3: in a Discipline A run, once `Workflow.execute` hands control
back, every `"failed"` history entry (the entry a raising node operation
appends, carrying that node's id) comes with overall status `failed`, an
error message recorded in the entry, and the same exception re-raised to
the caller — the error is not swallowed. -/
theorem claim_C3 {V : Type} (w : WorkflowA V) (init : PyDict V) (s : String)
    (h : w.start_node = some s) (r : RunResultA V)
    (hr : w.execute init = some r) :
    ∀ ent ∈ r.execution_history, ent.status = "failed" →
      r.status = .failed ∧ ent.error ≠ none ∧
      r.ret = Except.error (ent.error.getD "") := by
  obtain ⟨r0, hr0, _, hfail⟩ :=
    execLoop_spec w ((nodeKeys w).length + 2) [s] [] init []
      List.nodup_nil (by simp) (by omega) (by simp) (by simp) (by simp)
  have hreq : r0 = r := by
    simp only [WorkflowA.execute, h, hr0] at hr
    exact Option.some.inj hr
  subst hreq
  intro ent hent hstat
  obtain ⟨h1, msg, h2, h3⟩ := hfail ent hent hstat
  refine ⟨h1, ?_, ?_⟩
  · rw [h2]; exact Option.some_ne_none msg
  · rw [h2, h3]; rfl

/-- Single-node workflow whose operation raises (the C3 witness graph). -/
def wOpRaises : WorkflowA Nat :=
  { nodes := [("X", ⟨"X", fun _ => .error "boom2", "X"⟩)],
    edges := [], state := [], status := .created, start_node := some "X",
    end_nodes := [], execution_history := [] }

/-- The run record `wOpRaises.execute []` produces. -/
def rOpRaises : RunResultA Nat :=
  ⟨.failed, [⟨"X", "X", "failed", some "boom2"⟩], [], .error "boom2"⟩

/-- Concrete instance of `claim_C3`: the raising node leaves status
`failed`, a failed history entry for `"X"` with the message, and the
exception re-raised. -/
theorem claim_C3_witness :
    rOpRaises.status = .failed ∧
    (⟨"X", "X", "failed", some "boom2"⟩ : HistEntry).error ≠ none ∧
    rOpRaises.ret = Except.error
      ((⟨"X", "X", "failed", some "boom2"⟩ : HistEntry).error.getD "") :=
  claim_C3 wOpRaises [] "X" rfl rOpRaises rfl
    ⟨"X", "X", "failed", some "boom2"⟩ (by simp [rOpRaises]) rfl

/-! ## Discipline B: data model (`app/models.py`) -/

/-- Dynamically-typed state values of the Discipline B `State` model
(strings, integers, lists — enough for the declared fields and logs). -/
inductive PyVal : Type
  | str : String → PyVal
  | int : Int → PyVal
  | list : List PyVal → PyVal

/-- The declared fields of `State` with their pydantic defaults
(`extra = "allow"` makes the schema open). -/
def stateDefaults : PyDict PyVal :=
  [("original_text", .str ""), ("chunks", .list []),
   ("summaries", .list []), ("current_summary", .str ""),
   ("iteration_count", .int 0), ("logs", .list [])]

/-- `State(**input)`: the declared fields take their defaults unless the
input overrides them; extra input keys are kept (`extra = "allow"`).
`model_dump()` of the resulting object is the dict itself. -/
def StateB.make (input : PyDict PyVal) : PyDict PyVal :=
  dupdate stateDefaults input

/-- The `logs` field of a state dict (a list after `StateB.make`). -/
def getLogs (st : PyDict PyVal) : List PyVal :=
  match dlookup st "logs" with
  | some (.list l) => l
  | _ => []

/-- `state.logs.append(msg)`. -/
def appendLog (st : PyDict PyVal) (msg : String) : PyDict PyVal :=
  dinsert st "logs" (.list (getLogs st ++ [.str msg]))

/-- `Node` of `app/models.py` (the generated uuid `id` is not modelled;
no engine code reads it). -/
structure NodeB : Type where
  name : String
  tool_name : String
deriving DecidableEq

/-- `Edge` of `app/models.py`: the condition is a textual expression,
evaluated by `eval` against the state. -/
structure EdgeB : Type where
  from_node : String
  to_node : String
  condition : Option String
deriving DecidableEq

/-- `Engine` of `app/engine.py`: `node_map = {n.name: n for n in nodes}`,
the edge list, and the tool registry (`current_state` is threaded
explicitly through the functions below). -/
structure EngineB : Type where
  node_map : PyDict NodeB
  edges : List EdgeB
  registry : PyDict (PyDict PyVal → PyDict PyVal)

/-! ## Discipline B: traversal (`app/engine.py`)

`eval(edge.condition, {}, {"state": state})` is inherently external
code execution; it is abstracted as a parameter
`evalCond : String → PyDict PyVal → Except String Bool` giving the
truthiness of the evaluated expression or the raised exception. -/

/-- Python truthiness of `edge.condition` in `if not edge.condition`:
`None` and the empty string are falsy (unconditional edge). -/
def condFalsy : Option String → Bool
  | none => true
  | some c => c = ""

/-- The `for edge in candidates` loop of `Engine._get_next_node_name`:
first edge that is unconditional or whose condition evaluates truthy
wins; a condition that raises is logged and skipped (`continue`). -/
def scanEdges (evalCond : String → PyDict PyVal → Except String Bool) :
    List EdgeB → PyDict PyVal → Option String
  | [], _ => none
  | e :: rest, st =>
    if condFalsy e.condition then some e.to_node
    else
      match e.condition with
      | none => some e.to_node
      | some c =>
        match evalCond c st with
        | .ok true => some e.to_node
        | .ok false => scanEdges evalCond rest st
        | .error _ => scanEdges evalCond rest st

/-- `Engine._get_next_node_name` on an explicit edge list:
`candidates = [e for e in self.edges if e.from_node == current_node]`,
then the first-satisfied scan. -/
def getNextFromEdges (evalCond : String → PyDict PyVal → Except String Bool)
    (edges : List EdgeB) (current_node : String) (st : PyDict PyVal) :
    Option String :=
  scanEdges evalCond (edges.filter (fun e => e.from_node = current_node)) st

/-- `Engine._get_next_node_name`. -/
def EngineB.get_next_node_name
    (evalCond : String → PyDict PyVal → Except String Bool)
    (eng : EngineB) (current_node : String) (st : PyDict PyVal) :
    Option String :=
  getNextFromEdges evalCond eng.edges current_node st

/-- The log line `run_node` appends before invoking the tool. -/
def runLogMsg (node_name tool_name : String) : String :=
  "Running node " ++ node_name ++ " with tool " ++ tool_name

/-- `Engine.run_node`: resolve the node and its tool (raising
`ValueError` when either is missing), append the log line, invoke the
tool on the current state, and — only when the returned update dict is
truthy (non-empty) — rebuild the state from
`State(**{**model_dump, **updates})`. -/
def EngineB.run_node (eng : EngineB) (node_name : String)
    (st : PyDict PyVal) : Except String (PyDict PyVal) :=
  match dlookup eng.node_map node_name with
  | none => .error ("Node " ++ node_name ++ " not found")
  | some node =>
    match dlookup eng.registry node.tool_name with
    | none => .error ("Tool " ++ node.tool_name ++ " not found")
    | some tool =>
      let st1 := appendLog st (runLogMsg node_name node.tool_name)
      let updates := tool st1
      if updates.isEmpty then .ok st1
      else .ok (StateB.make (dupdate st1 updates))

/-- `MAX_STEPS` of `Engine.execute`. -/
def maxStepsB : Nat := 10

/-- Python truthiness of `current_node_name` in the `while` guard:
`None` and the empty string are falsy. -/
def truthyName : Option String → Bool
  | none => false
  | some s => decide (s ≠ "")

/-- The `while current_node_name and steps < MAX_STEPS` loop of
`Engine.execute`.  `fuel` is `MAX_STEPS - steps`, so `0 < fuel` is
exactly the guard `steps < MAX_STEPS`; the pair returns the final state
together with the final `steps` counter (one increment per `run_node`
call, i.e. the number of node executions). -/
def execLoopB (evalCond : String → PyDict PyVal → Except String Bool)
    (eng : EngineB) :
    Nat → Option String → Nat → PyDict PyVal →
    Except String (PyDict PyVal × Nat)
  | 0, _, steps, st => .ok (st, steps)
  | fuel + 1, current, steps, st =>
    match current with
    | none => .ok (st, steps)
    | some name =>
      if name = "" then .ok (st, steps)
      else
        match eng.run_node name st with
        | .error e => .error e
        | .ok st1 =>
          execLoopB evalCond eng fuel
            (eng.get_next_node_name evalCond name st1) (steps + 1) st1

/-- `Engine.execute`: build the initial state from the caller input, run
the bounded loop from the start node, then append the closing log line —
"Maximum steps reached. Workflow terminated." when the ceiling was hit,
"Workflow completed successfully." otherwise — and return the state
dump (paired with the executed-step count). -/
def EngineB.execute (evalCond : String → PyDict PyVal → Except String Bool)
    (eng : EngineB) (start_node_name : String)
    (initial_input : PyDict PyVal) : Except String (PyDict PyVal × Nat) :=
  match execLoopB evalCond eng maxStepsB (some start_node_name) 0
      (StateB.make initial_input) with
  | .error e => .error e
  | .ok (st, steps) =>
    if maxStepsB ≤ steps then
      .ok (appendLog st "Maximum steps reached. Workflow terminated.", steps)
    else
      .ok (appendLog st "Workflow completed successfully.", steps)

/-- Projection: the step count of a normally-returning run. -/
def execSteps : Except String (PyDict PyVal × Nat) → Option Nat
  | .ok (_, steps) => some steps
  | .error _ => none

/-- Projection: the last log line of a normally-returning run. -/
def execLastLog : Except String (PyDict PyVal × Nat) → Option PyVal
  | .ok (st, _) => (getLogs st).getLast?
  | .error _ => none

/-! ## C1 (amended) and C2 (amended): Discipline B behaviour -/

/-- C1 amended: in Discipline B, a node whose tool returns the empty
update dict `{}` leaves the state exactly as it was when the engine
applies the node's result — `if updates:` is false, so no merge happens
and the only change is the log line appended before the tool ran; every
key other than `logs` is untouched.  (Discipline A instead replaces the
state wholesale with the return value — see the counterexample.) -/
theorem claim_C1_amended (eng : EngineB) (node_name : String) (node : NodeB)
    (tool : PyDict PyVal → PyDict PyVal) (st : PyDict PyVal)
    (h1 : dlookup eng.node_map node_name = some node)
    (h2 : dlookup eng.registry node.tool_name = some tool)
    (h3 : ∀ s, tool s = []) :
    eng.run_node node_name st =
      .ok (appendLog st (runLogMsg node_name node.tool_name)) ∧
    ∀ k, k ≠ "logs" →
      dlookup (appendLog st (runLogMsg node_name node.tool_name)) k =
        dlookup st k := by
  constructor
  · simp [EngineB.run_node, h1, h2, h3]
  · intro k hk
    exact dlookup_dinsert_ne _ _ _ _ (Ne.symm hk)

/-- One-node, one-tool engine whose tool returns `{}`
(the C1 witness engine). -/
def engEmptyTool : EngineB :=
  { node_map := [("n", ⟨"n", "t"⟩)], edges := [],
    registry := [("t", fun _ => [])] }

/-- Concrete instance of `claim_C1_amended`: running the node keeps the
pre-existing key `"k"`. -/
theorem claim_C1_amended_witness :
    engEmptyTool.run_node "n" [("k", .int 5)] =
      .ok (appendLog [("k", .int 5)] (runLogMsg "n" "t")) ∧
    dlookup (appendLog [("k", PyVal.int 5)] (runLogMsg "n" "t")) "k" =
      dlookup [("k", PyVal.int 5)] "k" := by
  have h := claim_C1_amended engEmptyTool "n" ⟨"n", "t"⟩ (fun _ => [])
    [("k", .int 5)] rfl rfl (fun _ => rfl)
  exact ⟨h.1, h.2 "k" (by decide)⟩

/-- Condition-evaluation oracle in which every raise is replaced by a
clean `False` result. -/
def evalNoRaise (evalCond : String → PyDict PyVal → Except String Bool) :
    String → PyDict PyVal → Except String Bool :=
  fun c st =>
    match evalCond c st with
    | .ok b => .ok b
    | .error _ => .ok false

theorem scanEdges_evalNoRaise
    (evalCond : String → PyDict PyVal → Except String Bool) :
    ∀ (l : List EdgeB) (st : PyDict PyVal),
      scanEdges evalCond l st = scanEdges (evalNoRaise evalCond) l st := by
  intro l
  induction l with
  | nil => intro st; rfl
  | cons e rest ih =>
    intro st
    by_cases hc : condFalsy e.condition
    · simp [scanEdges, hc]
    · cases hcond : e.condition with
      | none => simp [condFalsy, hcond] at hc
      | some c =>
        cases hev : evalCond c st with
        | ok b =>
          cases b <;>
            simp [scanEdges, hc, hcond, evalNoRaise, hev, ih]
        | error e0 =>
          simp [scanEdges, hc, hcond, evalNoRaise, hev, ih]

theorem execLoopB_evalNoRaise
    (evalCond : String → PyDict PyVal → Except String Bool)
    (eng : EngineB) :
    ∀ (fuel : Nat) (current : Option String) (steps : Nat)
      (st : PyDict PyVal),
      execLoopB evalCond eng fuel current steps st =
        execLoopB (evalNoRaise evalCond) eng fuel current steps st := by
  intro fuel
  induction fuel with
  | zero => intro current steps st; rfl
  | succ fuel ih =>
    intro current steps st
    cases current with
    | none => rfl
    | some name =>
      by_cases hname : name = ""
      · simp [execLoopB, hname]
      · simp only [execLoopB, if_neg hname]
        cases hrun : eng.run_node name st with
        | error e => rfl
        | ok st1 =>
          have hnx : eng.get_next_node_name evalCond name st1 =
              eng.get_next_node_name (evalNoRaise evalCond) name st1 :=
            scanEdges_evalNoRaise evalCond _ st1
          simp only [hnx]
          exact ih _ _ _

/-- C2 amended: in Discipline B a raising edge condition is non-fatal —
the whole traversal behaves exactly as if every raising condition had
evaluated to `False`: the successor choice is unchanged, and an entire
`Engine.execute` run returns the same result (so a raise never aborts
the run).  (Discipline A propagates the raise — see the
counterexample.) -/
theorem claim_C2_amended
    (evalCond : String → PyDict PyVal → Except String Bool) :
    (∀ (edges : List EdgeB) (cur : String) (st : PyDict PyVal),
      getNextFromEdges evalCond edges cur st =
        getNextFromEdges (evalNoRaise evalCond) edges cur st) ∧
    (∀ (eng : EngineB) (start : String) (init : PyDict PyVal),
      EngineB.execute evalCond eng start init =
        EngineB.execute (evalNoRaise evalCond) eng start init) := by
  constructor
  · intro edges cur st
    exact scanEdges_evalNoRaise evalCond _ st
  · intro eng start init
    unfold EngineB.execute
    rw [execLoopB_evalNoRaise evalCond eng]

/-! ## C8: first-satisfied-edge successor choice (Discipline B) -/

/-- Whether one edge fires for a state: unconditional (no condition or
empty string), or the condition evaluates truthy; a raise counts as not
satisfied. -/
def edgeSatisfied (evalCond : String → PyDict PyVal → Except String Bool)
    (e : EdgeB) (st : PyDict PyVal) : Bool :=
  if condFalsy e.condition then true
  else
    match e.condition with
    | none => true
    | some c =>
      match evalCond c st with
      | .ok b => b
      | .error _ => false

theorem scanEdges_cons
    (evalCond : String → PyDict PyVal → Except String Bool)
    (e : EdgeB) (rest : List EdgeB) (st : PyDict PyVal) :
    scanEdges evalCond (e :: rest) st =
      if edgeSatisfied evalCond e st then some e.to_node
      else scanEdges evalCond rest st := by
  by_cases hc : condFalsy e.condition
  · simp [scanEdges, edgeSatisfied, hc]
  · cases hcond : e.condition with
    | none => simp [condFalsy, hcond] at hc
    | some c =>
      cases hev : evalCond c st with
      | ok b =>
        cases b <;> simp [scanEdges, edgeSatisfied, hc, hcond, hev]
      | error e0 => simp [scanEdges, edgeSatisfied, hc, hcond, hev]

theorem scanEdges_append_some
    (evalCond : String → PyDict PyVal → Except String Bool) :
    ∀ (l1 l2 : List EdgeB) (st : PyDict PyVal) (d : String),
      scanEdges evalCond l1 st = some d →
      scanEdges evalCond (l1 ++ l2) st = some d := by
  intro l1
  induction l1 with
  | nil =>
    intro l2 st d h
    simp [scanEdges] at h
  | cons e rest ih =>
    intro l2 st d h
    rw [scanEdges_cons] at h
    rw [List.cons_append, scanEdges_cons]
    by_cases hs : edgeSatisfied evalCond e st
    · rw [if_pos hs] at h
      rw [if_pos hs]
      exact h
    · rw [if_neg hs] at h
      rw [if_neg hs]
      exact ih l2 st d h

/-- C8: in Discipline B the successor is the destination of the first
edge, in declaration order, whose source is the current node and which
is satisfied (or unconditional): (1) edges declared after a decided
prefix never change the choice, (2) edges with a different source never
change the choice, (3) a satisfied current-source edge at the head of
the declaration list is the one chosen, and (4) an unsatisfied (or
raising) current-source edge at the head is skipped — the choice is
made from the remaining edges.  Together (2)–(4) compute the
first-satisfied current-source edge of any declaration list. -/
theorem claim_C8
    (evalCond : String → PyDict PyVal → Except String Bool) :
    (∀ (es1 es2 : List EdgeB) (cur : String) (st : PyDict PyVal)
        (d : String),
      getNextFromEdges evalCond es1 cur st = some d →
      getNextFromEdges evalCond (es1 ++ es2) cur st = some d) ∧
    (∀ (e : EdgeB) (es : List EdgeB) (cur : String) (st : PyDict PyVal),
      e.from_node ≠ cur →
      getNextFromEdges evalCond (e :: es) cur st =
        getNextFromEdges evalCond es cur st) ∧
    (∀ (e : EdgeB) (es : List EdgeB) (cur : String) (st : PyDict PyVal),
      e.from_node = cur → edgeSatisfied evalCond e st = true →
      getNextFromEdges evalCond (e :: es) cur st = some e.to_node) ∧
    (∀ (e : EdgeB) (es : List EdgeB) (cur : String) (st : PyDict PyVal),
      e.from_node = cur → edgeSatisfied evalCond e st = false →
      getNextFromEdges evalCond (e :: es) cur st =
        getNextFromEdges evalCond es cur st) := by
  refine ⟨?_, ?_, ?_, ?_⟩
  · intro es1 es2 cur st d h
    unfold getNextFromEdges at h ⊢
    rw [List.filter_append]
    exact scanEdges_append_some evalCond _ _ st d h
  · intro e es cur st h
    unfold getNextFromEdges
    rw [List.filter_cons_of_neg (by simpa using h)]
  · intro e es cur st h hs
    unfold getNextFromEdges
    rw [List.filter_cons_of_pos (by simpa using h), scanEdges_cons,
      if_pos hs]
  · intro e es cur st h hs
    unfold getNextFromEdges
    rw [List.filter_cons_of_pos (by simpa using h), scanEdges_cons,
      if_neg (by simp [hs])]

/-- Constant-false condition oracle for the C8 witness. -/
def evalFalse : String → PyDict PyVal → Except String Bool :=
  fun _ _ => .ok false

/-- Concrete instance of `claim_C8`: the first-declared satisfied edge
A→B wins over a later A→C edge, an unrelated Z→Q edge does not affect
the choice, a satisfied head edge is chosen, and an A→B edge with a
false condition is skipped so the unconditional A→C edge behind it
wins. -/
theorem claim_C8_witness :
    getNextFromEdges evalFalse
      ([⟨"A", "B", none⟩] ++ [⟨"A", "C", none⟩]) "A" [] = some "B" ∧
    getNextFromEdges evalFalse
      (⟨"Z", "Q", none⟩ :: [⟨"A", "B", none⟩]) "A" [] =
      getNextFromEdges evalFalse [⟨"A", "B", none⟩] "A" [] ∧
    getNextFromEdges evalFalse [⟨"A", "B", none⟩] "A" [] = some "B" ∧
    getNextFromEdges evalFalse
      (⟨"A", "B", some "c"⟩ :: [⟨"A", "C", none⟩]) "A" [] =
      getNextFromEdges evalFalse [⟨"A", "C", none⟩] "A" [] ∧
    getNextFromEdges evalFalse [⟨"A", "C", none⟩] "A" [] = some "C" := by
  refine ⟨?_, ?_, ?_, ?_, ?_⟩
  · exact (claim_C8 evalFalse).1 [⟨"A", "B", none⟩] [⟨"A", "C", none⟩]
      "A" [] "B" rfl
  · exact (claim_C8 evalFalse).2.1 ⟨"Z", "Q", none⟩ [⟨"A", "B", none⟩]
      "A" [] (by decide)
  · exact (claim_C8 evalFalse).2.2.1 ⟨"A", "B", none⟩ [] "A" [] rfl rfl
  · exact (claim_C8 evalFalse).2.2.2 ⟨"A", "B", some "c"⟩
      [⟨"A", "C", none⟩] "A" [] rfl (by decide)
  · exact (claim_C8 evalFalse).2.2.1 ⟨"A", "C", none⟩ [] "A" [] rfl rfl

/-! ## C6: the step ceiling (Discipline B) -/

theorem getLogs_appendLog (st : PyDict PyVal) (msg : String) :
    getLogs (appendLog st msg) = getLogs st ++ [.str msg] := by
  unfold appendLog getLogs
  rw [dlookup_dinsert_self]

theorem getLast?_append_singleton {α : Type} (l : List α) (a : α) :
    (l ++ [a]).getLast? = some a :=
  List.getLast?_concat l

/-- Under an invariant `P` on node names that guarantees a resolvable
node and a truthy satisfied successor, the bounded loop always burns the
whole fuel, executing one node per step. -/
theorem execLoopB_ceiling
    (evalCond : String → PyDict PyVal → Except String Bool)
    (eng : EngineB) (P : String → Prop)
    (h1 : ∀ name st, P name →
      ∃ st1, eng.run_node name st = .ok st1)
    (h2 : ∀ name st1, P name →
      ∃ nx, eng.get_next_node_name evalCond name st1 = some nx ∧
        nx ≠ "" ∧ P nx) :
    ∀ (fuel steps : Nat) (name : String) (st : PyDict PyVal),
      P name → name ≠ "" →
      ∃ stF, execLoopB evalCond eng fuel (some name) steps st =
        .ok (stF, steps + fuel) := by
  intro fuel
  induction fuel with
  | zero =>
    intro steps name st _ _
    exact ⟨st, rfl⟩
  | succ fuel ih =>
    intro steps name st hP hne
    obtain ⟨st1, hrun⟩ := h1 name st hP
    obtain ⟨nx, hnx, hnxne, hnxP⟩ := h2 name st1 hP
    obtain ⟨stF, hloop⟩ := ih (steps + 1) nx st1 hnxP hnxne
    refine ⟨stF, ?_⟩
    simp only [execLoopB, if_neg hne, hrun, hnx, hloop]
    congr 2
    omega

/-- C6: in a Discipline B run in which every executed node resolves and
always has a satisfied (or unconditional) truthy successor —
`P` over-approximates the executed node names — `Engine.execute` stops
after exactly `MAX_STEPS = 10` node executions, the state's `logs` field
ends with the "Maximum steps reached. Workflow terminated." line, and
the run returns the final state normally instead of raising. -/
theorem claim_C6
    (evalCond : String → PyDict PyVal → Except String Bool)
    (eng : EngineB) (start : String) (init : PyDict PyVal)
    (P : String → Prop) (hstart : P start) (hstartne : start ≠ "")
    (h1 : ∀ name st, P name →
      ∃ st1, eng.run_node name st = .ok st1)
    (h2 : ∀ name st1, P name →
      ∃ nx, eng.get_next_node_name evalCond name st1 = some nx ∧
        nx ≠ "" ∧ P nx) :
    execSteps (eng.execute evalCond start init) = some 10 ∧
    execLastLog (eng.execute evalCond start init) =
      some (.str "Maximum steps reached. Workflow terminated.") := by
  obtain ⟨stF, hloop⟩ := execLoopB_ceiling evalCond eng P h1 h2
    maxStepsB 0 start (StateB.make init) hstart hstartne
  have hsteps : (0 : Nat) + maxStepsB = 10 := rfl
  rw [hsteps] at hloop
  have hexec : eng.execute evalCond start init =
      .ok (appendLog stF "Maximum steps reached. Workflow terminated.",
           10) := by
    unfold EngineB.execute
    rw [hloop]
    simp [maxStepsB]
  rw [hexec]
  constructor
  · rfl
  · show (getLogs (appendLog stF
        "Maximum steps reached. Workflow terminated.")).getLast? = _
    rw [getLogs_appendLog, getLast?_append_singleton]

/-- Self-looping one-node engine for the C6 witness: node `"loop"`, tool
returning `{}`, unconditional edge loop→loop. -/
def engSelfLoop : EngineB :=
  { node_map := [("loop", ⟨"loop", "t"⟩)],
    edges := [⟨"loop", "loop", none⟩],
    registry := [("t", fun _ => [])] }

/-- Concrete instance of `claim_C6`: the self-loop runs exactly 10 steps
and logs the ceiling message. -/
theorem claim_C6_witness :
    execSteps (engSelfLoop.execute evalFalse "loop" []) = some 10 ∧
    execLastLog (engSelfLoop.execute evalFalse "loop" []) =
      some (.str "Maximum steps reached. Workflow terminated.") := by
  refine claim_C6 evalFalse engSelfLoop "loop" [] (fun n => n = "loop")
    rfl (by decide) ?_ ?_
  · intro name st hn
    subst hn
    exact ⟨_, rfl⟩
  · intro name st1 hn
    subst hn
    exact ⟨"loop", rfl, by decide, rfl⟩
